import Mathlib

/-!
# Verification of `spellingfixer.py`

A shallow embedding of the spelling corrector: the model trainer
(`compute_emissions`, `compute_transitions`), the Viterbi decoder
(`viterbi`) and the vocabulary snapper (`closest_known_word`),
together with specification-level reference definitions and theorems
relating the two.

Modelling conventions:
* Python strings are modelled as `List Char`; words are lists of characters.
* Python dictionaries (which preserve insertion order) are modelled as
  association lists `List (key × value)`; `dict.get(k, d)` is
  `(l.lookup k).getD d`, and `d[k] = v` is `setKey`, which updates the
  first occurrence in place or appends a fresh key at the end — exactly
  Python's insertion-order semantics.
* Probabilities are exact rationals (`ℚ`).  The Python decoder works with
  sums of `math.log` of positive floats; since `log` is strictly monotone,
  comparing `log a + log b + log c` with `log d + log e + log f` is the
  same as comparing the products `a*b*c` and `d*e*f`.  The embedding
  therefore carries the *products* of the probabilities as scores.
  Python's `float("-inf")` (the score of "no path") corresponds to the
  product score `0`, and the initial accumulator `max_prob = -inf` is the
  product score `0` with `prev_state = None`: for positive-valued tables
  (the only ones on which the Python code does not raise `ValueError`
  from `math.log`) every genuine score is a positive rational, so the
  comparisons `prob > -inf` (always true) and `0 < prob` agree.
* The floor constant `1e-6` is the exact rational `1/1000000`.
-/

/-- The fixed 26-letter alphabet, `string.ascii_lowercase`. -/
def letters : List Char :=
  ['a', 'b', 'c', 'd', 'e', 'f', 'g', 'h', 'i', 'j', 'k', 'l', 'm',
   'n', 'o', 'p', 'q', 'r', 's', 't', 'u', 'v', 'w', 'x', 'y', 'z']

/-- A probability row: an insertion-ordered dictionary `Char → ℚ`. -/
abbrev Row : Type := List (Char × ℚ)

/-- A probability table: an insertion-ordered dictionary of rows,
as returned by `compute_emissions` / `compute_transitions`. -/
abbrev Table : Type := List (Char × Row)

/-- Paths recorded by the decoder: dictionary `Char → List Char`. -/
abbrev Paths : Type := List (Char × List Char)

/-- The smoothing floor probability `1e-6`. -/
def floorP : ℚ := 1 / 1000000

/-- Table lookup `tbl.get(a, {}).get(b, 1e-6)`: lookup with the smoothing floor. -/
def getP (tbl : Table) (a b : Char) : ℚ :=
  (((tbl.lookup a).getD []).lookup b).getD floorP

/-- Assignment `d[k] = v` on an insertion-ordered dictionary: replace the value at the
first occurrence of `k`, or append `(k, v)` at the end if `k` is absent. -/
def setKey {β : Type} : List (Char × β) → Char → β → List (Char × β)
  | [], k, v => [(k, v)]
  | (k0, v0) :: rest, k, v =>
      if k0 = k then (k, v) :: rest else (k0, v0) :: setKey rest k v

/-- Increment `if t not in row: row[t] = 0` followed by `row[t] += 1`. -/
def bumpRow (row : List (Char × ℕ)) (t : Char) : List (Char × ℕ) :=
  setKey row t (((row.lookup t).getD 0) + 1)

/-- Increment `if c not in m: m[c] = new dict` followed by a `bumpRow` on `m[c]`. -/
def bump2 (m : List (Char × List (Char × ℕ))) (c t : Char) :
    List (Char × List (Char × ℕ)) :=
  setKey m c (bumpRow ((m.lookup c).getD []) t)

/-- Normalize a count row into probabilities: `count / total` where
`total` is the sum of the row's counts (the Python normalization loop). -/
def normalizeRow (row : List (Char × ℕ)) : Row :=
  let total : ℕ := row.foldl (fun acc p => acc + p.2) 0
  row.map fun p => (p.1, (p.2 : ℚ) / (total : ℚ))

/-- Emission training `compute_emissions`: for each `(correct, typed)` pair count the
index-aligned character pairs `(correct[i], typed[i])` for
`i < min (len correct) (len typed)` — exactly the elements of
`correct.zip typed` — then normalize each row. -/
def compute_emissions (pairs : List (List Char × List Char)) : Table :=
  let counts := pairs.foldl
    (fun em p => (p.1.zip p.2).foldl (fun em ct => bump2 em ct.1 ct.2) em) []
  counts.map fun r => (r.1, normalizeRow r.2)

/-- Transition training `compute_transitions`: pad each correct word as `'^' + word + '$'`,
count every adjacent pair `(word[i], word[i+1])` — exactly the elements of
`padded.zip padded.tail` — then normalize each row. -/
def compute_transitions (pairs : List (List Char × List Char)) : Table :=
  let counts := pairs.foldl
    (fun tr p =>
      let word := '^' :: p.1 ++ ['$']
      (word.zip word.tail).foldl (fun tr ab => bump2 tr ab.1 ab.2) tr) []
  counts.map fun r => (r.1, normalizeRow r.2)

/-- The initialization loop of `viterbi`:
`V[0][s] = log(trans.get('^',{}).get(s,1e-6)) + log(emis.get(s,{}).get(typed[0],1e-6))`
(as a product score) and `path[s] = [s]`, for every letter `s`. -/
def viterbiInit (trans emis : Table) (c0 : Char) : Row × Paths :=
  (letters.map fun s => (s, getP trans '^' s * getP emis s c0),
   letters.map fun s => (s, [s]))

/-- One iteration `t` of the main `viterbi` loop: for each letter `s`,
fold over previous letters `s0` keeping `(max_prob, prev_state)` —
starting from `(-inf, None)`, i.e. product score `0` — then set
`V[t][s] = max_prob` and, when `prev_state` is not `None`,
`newpath[s] = path[prev_state] + [s]`. -/
def viterbiStep (trans emis : Table) (ct : Char) (st : Row × Paths) :
    Row × Paths :=
  let res : List (Char × ℚ × Option Char) := letters.map fun s =>
    (s, letters.foldl
      (fun acc s0 =>
        let prob := ((st.1.lookup s0).getD 0) * getP trans s0 s *
          getP emis s ct
        if acc.1 < prob then (prob, some s0) else acc)
      ((0 : ℚ), (none : Option Char)))
  (res.map fun r => (r.1, r.2.1),
   res.filterMap fun r =>
     r.2.2.map fun ps => (r.1, ((st.2.lookup ps).getD []) ++ [r.1]))

/-- The DP levels after consuming the observed characters `c0 :: cs`:
the initialization level folded through the main loop over `cs`. -/
def viterbiLevels (trans emis : Table) (c0 : Char) (cs : List Char) :
    Row × Paths :=
  cs.foldl (fun st ct => viterbiStep trans emis ct st)
    (viterbiInit trans emis c0)

/-- The termination loop of `viterbi`: fold over letters `s` keeping
`(max_prob, best_state)` for
`V[last].get(s, -inf) + log(trans.get(s,{}).get('$',1e-6))` (as products). -/
def viterbiFinal (trans : Table) (Vlast : Row) : ℚ × Option Char :=
  letters.foldl
    (fun acc s =>
      let total := ((Vlast.lookup s).getD 0) * getP trans s '$'
      if acc.1 < total then (total, some s) else acc)
    ((0 : ℚ), (none : Option Char))

/-- Decoder `viterbi(typed, transition_probs, emission_probs)`.  The Python code
evaluates `typed[0]` unconditionally, so a zero-length observed word
raises `IndexError`; the embedding returns `none` there.  The `best_state
is None` fallback returns the observed word unchanged; a `KeyError` on
`path[best_state]` (unreachable for positive tables) is modelled by the
`getD []` default. -/
def viterbi (typed : List Char) (trans emis : Table) : Option (List Char) :=
  match typed with
  | [] => none
  | c0 :: rest =>
    let st := viterbiLevels trans emis c0 rest
    match (viterbiFinal trans st.1).2 with
    | none => some typed
    | some bs => some ((st.2.lookup bs).getD [])

/-- The snapper's distance:
`abs(len(word) - len(candidate))` plus the number of positions
`i < min (len word) (len candidate)` with `word[i] != candidate[i]` —
exactly the mismatched elements of `word.zip candidate`. -/
def distance (word candidate : List Char) : ℕ :=
  ((word.length : ℤ) - (candidate.length : ℤ)).natAbs +
    (word.zip candidate).countP fun p => decide (p.1 ≠ p.2)

/-- Snapper `closest_known_word(candidate, dictionary_words)`: exact hits are
returned unchanged; otherwise a linear scan keeps `(best, best_score)`
starting from `(candidate, 10**9)` and replaces it whenever a word's
distance is strictly below the current best score. -/
def closest_known_word (candidate : List Char)
    (dictionary_words : List (List Char)) : List Char :=
  if candidate ∈ dictionary_words then candidate
  else
    (dictionary_words.foldl
      (fun acc word =>
        let dist := distance word candidate
        if dist < acc.2 then (word, dist) else acc)
      (candidate, 10 ^ 9)).1

/-! ## Specification-level reference definitions

These render the spec's own words (the dynamic program of §4.2, the
counting definitions of §4.1 and the snapping rule of §4.3) and are
compared with the code-level definitions above. -/

/-- A table all of whose stored probabilities are positive — the tables on
which the Python code's `math.log` calls are defined.  The tables produced
by training always satisfy this (their values lie in `(0, 1]`). -/
def PosTable (tbl : Table) : Prop :=
  ∀ r ∈ tbl, ∀ p ∈ r.2, 0 < p.2

/-- The maximum of `f` over a (nonempty) list of letters; `0` on `[]`. -/
def maxOver (f : Char → ℚ) : List Char → ℚ
  | [] => 0
  | x :: xs => xs.foldl (fun m y => max m (f y)) (f x)

/-- Spec tie-break: the first element of the list attaining the maximum of
`f` — i.e. the first `x` such that every later element scores `≤ f x`. -/
def argmaxFirst (f : Char → ℚ) : List Char → Option Char
  | [] => none
  | x :: xs =>
      if xs.all fun y => decide (f y ≤ f x) then some x
      else argmaxFirst f xs

/-- Spec recurrence, one position: the score of letter `s` at position `t`
is the maximum over previous letters `s0` of
`score(t-1, s0) + log P(s | s0) + log P(observed[t] | s)` (as products),
with the `1e-6` floor for missing entries. -/
def specStep (trans emis : Table) (c : Char) (g : Char → ℚ) (s : Char) : ℚ :=
  maxOver (fun s0 => g s0 * getP trans s0 s * getP emis s c) letters

/-- Spec recurrence, recorded paths: the argmax `s0` (first letter in
alphabetic order attaining the maximum) determines which previous
best-path is extended by `s`. -/
def specPathStep (trans emis : Table) (c : Char) (g : Char → ℚ)
    (p : Char → List Char) (s : Char) : List Char :=
  p ((argmaxFirst (fun s0 => g s0 * getP trans s0 s * getP emis s c)
      letters).getD s) ++ [s]

/-- The spec's dynamic program run over the remaining observed characters,
threading the score function and the recorded paths. -/
def specLevels (trans emis : Table) :
    List Char → (Char → ℚ) × (Char → List Char) →
      (Char → ℚ) × (Char → List Char)
  | [], gp => gp
  | c :: cs, gp =>
      specLevels trans emis cs
        (specStep trans emis c gp.1, specPathStep trans emis c gp.1 gp.2)

/-- The spec's decoder: position-0 scores
`log P(s | start) + log P(observed[0] | s)` with paths `[s]`, the
recurrence over the later positions, and finally the recorded path of the
first letter maximizing `score(last, s) + log P(end | s)`. -/
def specDecode (typed : List Char) (trans emis : Table) : List Char :=
  match typed with
  | [] => []
  | c0 :: rest =>
    let gp := specLevels trans emis rest
      ((fun s => getP trans '^' s * getP emis s c0), fun s => [s])
    gp.2 ((argmaxFirst (fun s => gp.1 s * getP trans s '$') letters).getD 'a')

/-- Spec tie-break for the snapper: the first element of the list whose
`f`-value is a minimum — i.e. the first `w` with every later element
scoring `≥ f w`. -/
def argminFirst {α : Type} (f : α → ℕ) : List α → Option α
  | [] => none
  | x :: xs =>
      if xs.all fun y => decide (f x ≤ f y) then some x
      else argminFirst f xs

/-- The spec's snapping rule: an exact vocabulary hit is returned
unchanged; otherwise the vocabulary word of minimum `distance`, the first
encountered minimum winning ties (and the candidate itself when the
vocabulary is empty). -/
def snapSpec (candidate : List Char) (vocab : List (List Char)) : List Char :=
  if candidate ∈ vocab then candidate
  else (argminFirst (fun w => distance w candidate) vocab).getD candidate

/-- The aligned emission events of the training set: every pair
`(correct[i], typed[i])` with `i < min (len correct) (len typed)`. -/
def emissionEvents (pairs : List (List Char × List Char)) :
    List (Char × Char) :=
  (pairs.map fun p => p.1.zip p.2).flatten

/-- The transition events of the training set: every adjacent character
pair of each padded correct word `'^' + word + '$'`. -/
def transitionEvents (pairs : List (List Char × List Char)) :
    List (Char × Char) :=
  (pairs.map fun p =>
    let w := '^' :: p.1 ++ ['$']
    w.zip w.tail).flatten

/-- The spec's count of an event `(c, t)`. -/
def eventCount (events : List (Char × Char)) (c t : Char) : ℕ :=
  events.countP fun e => decide (e = (c, t))

/-- The spec's row total for `c`: the number of events whose first
component is `c`. -/
def rowTotal (events : List (Char × Char)) (c : Char) : ℕ :=
  events.countP fun e => decide (e.1 = c)

/-- Two-level lookup in a probability table. -/
def lookup2 (tbl : Table) (c t : Char) : Option ℚ :=
  ((tbl.lookup c).getD []).lookup t

/-! ## Auxiliary definitions used by the proofs -/

/-- The running `(max_prob, prev_state)` accumulator of the decoder,
as a recursion: threading the best score and its first attaining letter. -/
def pick (f : Char → ℚ) : ℚ → Char → List Char → Char
  | _, a, [] => a
  | m, a, y :: ys => if m < f y then pick f (f y) y ys else pick f m a ys
/-- The running `(best, best_score)` accumulator of the snapper, as a
recursion on the remaining vocabulary (once the score matches the best). -/
def pickMin {α : Type} (f : α → ℕ) : α → List α → α
  | a, [] => a
  | a, y :: ys => if f y < f a then pickMin f y ys else pickMin f a ys
/-- The pathological vocabulary word defeating the `10**9` sentinel:
its distance to the empty candidate is exactly `10**9`, which the
strict comparison `dist < best_score` never accepts. -/
def bigWord : List Char := List.replicate (10 ^ 9) 'a'
/-- The count stored for `(c, t)` in an intermediate counts dictionary. -/
def cntAt (m : List (Char × List (Char × ℕ))) (c t : Char) : Option ℕ :=
  ((m.lookup c).getD []).lookup t


/-- The sum of the counts in the row of `c`. -/
def rowSumAt (m : List (Char × List (Char × ℕ))) (c : Char) : ℕ :=
  (((m.lookup c).getD []).map fun p => p.2).sum

/-- Well-formedness of intermediate counts: rows are non-empty and every
stored count is at least 1. -/
def WFCounts (m : List (Char × List (Char × ℕ))) : Prop :=
  ∀ r ∈ m, r.2 ≠ [] ∧ ∀ p ∈ r.2, 1 ≤ p.2

/-- The counts dictionary accumulated over a flat list of events. -/
def countFold (events : List (Char × Char)) :
    List (Char × List (Char × ℕ)) :=
  events.foldl (fun m e => bump2 m e.1 e.2) []

/-- Counting then normalizing a flat list of events: both trainer
functions reduce to this. -/
def eventTable (events : List (Char × Char)) : Table :=
  (countFold events).map fun r => (r.1, normalizeRow r.2)

/-! ## Association-list lemmas -/

theorem beq_ne_false {a b : Char} (h : a ≠ b) : (a == b) = false :=
  beq_eq_false_iff_ne.mpr h

theorem lookup_setKey_self {β : Type} (m : List (Char × β)) (k : Char)
    (v : β) : (setKey m k v).lookup k = some v := by
  induction m with
  | nil => simp [setKey, List.lookup]
  | cons p rest ih =>
      obtain ⟨k0, v0⟩ := p
      by_cases h : k0 = k
      · simp [setKey, h, List.lookup]
      · simp [setKey, h, List.lookup,
          beq_ne_false fun hh => h hh.symm, ih]

theorem lookup_setKey_ne {β : Type} (m : List (Char × β)) (k k2 : Char)
    (v : β) (h : k2 ≠ k) : (setKey m k v).lookup k2 = m.lookup k2 := by
  induction m with
  | nil => simp [setKey, List.lookup, beq_ne_false h]
  | cons p rest ih =>
      obtain ⟨k0, v0⟩ := p
      by_cases h0 : k0 = k
      · subst h0
        simp [setKey, List.lookup, beq_ne_false h]
      · by_cases h2 : k2 = k0
        · subst h2
          simp [setKey, h0, List.lookup]
        · simp [setKey, h0, List.lookup, beq_ne_false h2, ih]

theorem mem_setKey {β : Type} (m : List (Char × β)) (k : Char) (v : β) :
    ∀ p ∈ setKey m k v, p ∈ m ∨ p = (k, v) := by
  induction m with
  | nil => simp [setKey]
  | cons q rest ih =>
      obtain ⟨k0, v0⟩ := q
      intro p hp
      by_cases h : k0 = k
      · simp only [setKey, if_pos h, List.mem_cons] at hp
        rcases hp with hp | hp
        · right; exact hp
        · left; exact List.mem_cons_of_mem _ hp
      · simp only [setKey, if_neg h, List.mem_cons] at hp
        rcases hp with hp | hp
        · left; simp [hp]
        · rcases ih p hp with h2 | h2
          · left; exact List.mem_cons_of_mem _ h2
          · right; exact h2

theorem setKey_ne_nil {β : Type} (m : List (Char × β)) (k : Char) (v : β) :
    setKey m k v ≠ [] := by
  cases m with
  | nil => simp [setKey]
  | cons q rest =>
      obtain ⟨k0, v0⟩ := q
      by_cases h : k0 = k <;> simp [setKey, h]

theorem lookup_map_self {α : Type} (g : Char → α) (l : List Char) (s : Char)
    (h : s ∈ l) : (l.map fun x => (x, g x)).lookup s = some (g s) := by
  induction l with
  | nil => cases h
  | cons x xs ih =>
      by_cases hx : s = x
      · subst hx
        simp [List.lookup]
      · rcases List.mem_cons.mp h with h1 | h1
        · exact absurd h1 hx
        · simp [List.lookup, beq_ne_false hx, ih h1]

theorem lookup_map_snd {β γ : Type} (h : β → γ) (m : List (Char × β))
    (t : Char) :
    (m.map fun p => (p.1, h p.2)).lookup t = (m.lookup t).map h := by
  induction m with
  | nil => simp [List.lookup]
  | cons p rest ih =>
      by_cases ht : t = p.1
      · subst ht
        simp [List.lookup]
      · simp [List.lookup, beq_ne_false ht, ih]

theorem lookup_mem {β : Type} (m : List (Char × β)) (k : Char) (v : β)
    (h : m.lookup k = some v) : (k, v) ∈ m := by
  induction m with
  | nil => simp [List.lookup] at h
  | cons p rest ih =>
      obtain ⟨k0, v0⟩ := p
      by_cases h0 : k = k0
      · subst h0
        simp [List.lookup] at h
        simp [h]
      · simp only [List.lookup, beq_ne_false h0] at h
        exact List.mem_cons_of_mem _ (ih h)

theorem foldl_congr_mem {α β : Type} (l : List α) (f g : β → α → β)
    (b : β) (h : ∀ b2, ∀ a ∈ l, f b2 a = g b2 a) :
    l.foldl f b = l.foldl g b := by
  induction l generalizing b with
  | nil => rfl
  | cons x xs ih =>
      simp only [List.foldl_cons]
      rw [h b x (List.mem_cons_self x xs)]
      exact ih _ fun b2 a ha => h b2 a (List.mem_cons_of_mem _ ha)

theorem filterMap_congr_mem {α β : Type} (l : List α)
    (f g : α → Option β) (h : ∀ a ∈ l, f a = g a) :
    l.filterMap f = l.filterMap g := by
  induction l with
  | nil => rfl
  | cons x xs ih =>
      simp only [List.filterMap_cons]
      rw [h x (List.mem_cons_self x xs),
        ih fun a ha => h a (List.mem_cons_of_mem _ ha)]

/-! ## The argmax folds of the decoder -/


theorem foldArg (f : Char → ℚ) (xs : List Char) :
    ∀ (m : ℚ) (a : Char),
      xs.foldl (fun acc y => if acc.1 < f y then (f y, some y) else acc)
          (m, some a)
        = (xs.foldl (fun m2 y => max m2 (f y)) m, some (pick f m a xs)) := by
  induction xs with
  | nil => intro m a; rfl
  | cons y ys ih =>
      intro m a
      by_cases hy : m < f y
      · simp only [List.foldl_cons, if_pos hy, pick, ih,
          max_eq_right hy.le]
      · simp only [List.foldl_cons, if_neg hy, pick, ih,
          max_eq_left (not_lt.mp hy)]

theorem argmaxFirst_cons_true {f : Char → ℚ} {x : Char} {l : List Char}
    (h : (l.all fun y => decide (f y ≤ f x)) = true) :
    argmaxFirst f (x :: l) = some x := by
  simp only [argmaxFirst, h, if_true]

theorem argmaxFirst_cons_false {f : Char → ℚ} {x : Char} {l : List Char}
    (h : (l.all fun y => decide (f y ≤ f x)) = false) :
    argmaxFirst f (x :: l) = argmaxFirst f l := by
  simp only [argmaxFirst, h, Bool.false_eq_true, if_false]

theorem all_le_of_forall {f : Char → ℚ} {x : Char} {l : List Char}
    (h : ∀ y ∈ l, f y ≤ f x) :
    (l.all fun y => decide (f y ≤ f x)) = true := by
  simp only [List.all_eq_true, decide_eq_true_iff]
  exact h

theorem all_le_false_of_gt {f : Char → ℚ} {x : Char} {l : List Char}
    {z : Char} (hz : z ∈ l) (h : f x < f z) :
    (l.all fun y => decide (f y ≤ f x)) = false := by
  apply Bool.eq_false_iff.mpr
  intro hall
  exact absurd (decide_eq_true_iff.mp (List.all_eq_true.mp hall z hz))
    (not_le.mpr h)

theorem exists_gt_of_all_false {f : Char → ℚ} {x : Char} {l : List Char}
    (h : (l.all fun y => decide (f y ≤ f x)) = false) :
    ∃ z ∈ l, f x < f z := by
  by_contra hc
  push_neg at hc
  rw [all_le_of_forall fun y hy => hc y hy] at h
  cases h

theorem pick_argmaxFirst (f : Char → ℚ) (xs : List Char) :
    ∀ a : Char, argmaxFirst f (a :: xs) = some (pick f (f a) a xs) := by
  induction xs with
  | nil => intro a; simp [argmaxFirst, pick]
  | cons y ys ih =>
      intro a
      by_cases hy : f a < f y
      · rw [argmaxFirst_cons_false
          (all_le_false_of_gt (List.mem_cons_self y ys) hy)]
        simp only [pick, if_pos hy]
        exact ih y
      · simp only [pick, if_neg hy]
        by_cases hall : ∀ z ∈ ys, f z ≤ f a
        · have h1 := all_le_of_forall hall
          have hca : ((y :: ys).all fun w => decide (f w ≤ f a)) = true := by
            simp only [List.all_cons, h1, Bool.and_true,
              decide_eq_true_iff]
            exact not_lt.mp hy
          rw [argmaxFirst_cons_true hca]
          have h2 := (ih a).symm.trans (argmaxFirst_cons_true h1)
          rw [← Option.some.injEq] at h2 ⊢
          exact h2.symm ▸ rfl
        · obtain ⟨z, hz, hzgt⟩ : ∃ z ∈ ys, f a < f z := by
            by_contra hc
            push_neg at hc
            exact hall fun z hzz => hc z hzz
          have h1 : (ys.all fun w => decide (f w ≤ f a)) = false :=
            all_le_false_of_gt hz hzgt
          have hca : ((y :: ys).all fun w => decide (f w ≤ f a)) = false :=
            all_le_false_of_gt (List.mem_cons_of_mem y hz) hzgt
          have h4 : (ys.all fun w => decide (f w ≤ f y)) = false :=
            all_le_false_of_gt hz (lt_of_le_of_lt (not_lt.mp hy) hzgt)
          rw [argmaxFirst_cons_false hca, argmaxFirst_cons_false h4,
            ← argmaxFirst_cons_false h1, ih a]

theorem foldArg_spec (f : Char → ℚ) (l : List Char) (hl : l ≠ [])
    (hpos : ∀ y ∈ l, 0 < f y) :
    l.foldl (fun acc y => if acc.1 < f y then (f y, some y) else acc)
        ((0 : ℚ), (none : Option Char))
      = (maxOver f l, argmaxFirst f l) := by
  cases l with
  | nil => exact absurd rfl hl
  | cons x xs =>
      have hx : (0 : ℚ) < f x := hpos x (List.mem_cons_self x xs)
      simp only [List.foldl_cons, if_pos hx]
      rw [foldArg, pick_argmaxFirst]
      rfl

theorem le_foldl_max (f : Char → ℚ) (xs : List Char) :
    ∀ m : ℚ, m ≤ xs.foldl (fun m2 y => max m2 (f y)) m := by
  induction xs with
  | nil => intro m; exact le_refl m
  | cons y ys ih =>
      intro m
      exact le_trans (le_max_left m (f y)) (ih (max m (f y)))

theorem maxOver_pos (f : Char → ℚ) (l : List Char) (hl : l ≠ [])
    (hpos : ∀ y ∈ l, 0 < f y) : 0 < maxOver f l := by
  cases l with
  | nil => exact absurd rfl hl
  | cons x xs =>
      exact lt_of_lt_of_le (hpos x (List.mem_cons_self x xs))
        (le_foldl_max f xs (f x))

theorem argmaxFirst_isSome (f : Char → ℚ) (l : List Char) (hl : l ≠ []) :
    (argmaxFirst f l).isSome = true := by
  induction l with
  | nil => exact absurd rfl hl
  | cons x xs ih =>
      cases hx : (List.all xs fun y => decide (f y ≤ f x)) with
      | true => rw [argmaxFirst_cons_true hx]; rfl
      | false =>
          have hxs : xs ≠ [] := by
            intro hn; rw [hn] at hx; cases hx
          rw [argmaxFirst_cons_false hx]
          exact ih hxs

theorem argmaxFirst_mem (f : Char → ℚ) (l : List Char) (a : Char)
    (h : argmaxFirst f l = some a) : a ∈ l := by
  induction l with
  | nil => simp [argmaxFirst] at h
  | cons x xs ih =>
      cases hx : (List.all xs fun y => decide (f y ≤ f x)) with
      | true =>
          rw [argmaxFirst_cons_true hx] at h
          simp only [Option.some.injEq] at h
          simp [h]
      | false =>
          rw [argmaxFirst_cons_false hx] at h
          exact List.mem_cons_of_mem _ (ih h)

theorem argmaxFirst_ge (f : Char → ℚ) (l : List Char) (a : Char)
    (h : argmaxFirst f l = some a) : ∀ b ∈ l, f b ≤ f a := by
  induction l with
  | nil => simp [argmaxFirst] at h
  | cons x xs ih =>
      cases hx : (List.all xs fun y => decide (f y ≤ f x)) with
      | true =>
          rw [argmaxFirst_cons_true hx] at h
          simp only [Option.some.injEq] at h
          subst h
          intro b hb
          rcases List.mem_cons.mp hb with hb | hb
          · exact le_of_eq (by rw [hb])
          · exact decide_eq_true_iff.mp (List.all_eq_true.mp hx b hb)
      | false =>
          rw [argmaxFirst_cons_false hx] at h
          intro b hb
          rcases List.mem_cons.mp hb with hb | hb
          · obtain ⟨z, hz, hzgt⟩ := exists_gt_of_all_false hx
            calc f b = f x := by rw [hb]
              _ ≤ f z := hzgt.le
              _ ≤ f a := ih h z hz
          · exact ih h b hb

/-! ## The decoder computes the spec's dynamic program -/

theorem letters_ne_nil : letters ≠ [] := by
  simp [letters]

theorem floorP_pos : 0 < floorP := by
  norm_num [floorP]

theorem getP_pos (tbl : Table) (h : PosTable tbl) (a b : Char) :
    0 < getP tbl a b := by
  unfold getP
  cases h1 : tbl.lookup a with
  | none => simpa [h1] using floorP_pos
  | some row =>
      cases h2 : row.lookup b with
      | none => simpa [h1, h2] using floorP_pos
      | some q =>
          have hq := h (a, row) (lookup_mem _ _ _ h1) (b, q)
            (lookup_mem _ _ _ h2)
          simpa [h1, h2] using hq

theorem specStep_pos (trans emis : Table) (c : Char) (g : Char → ℚ)
    (hg : ∀ s : Char, 0 < g s) (ht : PosTable trans) (he : PosTable emis) :
    ∀ s : Char, 0 < specStep trans emis c g s := by
  intro s
  exact maxOver_pos _ letters letters_ne_nil fun s0 _ =>
    mul_pos (mul_pos (hg s0) (getP_pos trans ht s0 s)) (getP_pos emis he s c)

theorem filterMap_some_eq_map {α β : Type} (h : α → β) (l : List α) :
    l.filterMap (fun x => some (h x)) = l.map h := by
  induction l with
  | nil => rfl
  | cons x xs ih => simp [List.filterMap_cons, ih]

theorem viterbiStep_spec (trans emis : Table) (ct : Char) (g : Char → ℚ)
    (p : Char → List Char) (hg : ∀ s : Char, 0 < g s)
    (ht : PosTable trans) (he : PosTable emis) :
    viterbiStep trans emis ct
        (letters.map fun s => (s, g s), letters.map fun s => (s, p s))
      = (letters.map fun s => (s, specStep trans emis ct g s),
         letters.map fun s => (s, specPathStep trans emis ct g p s)) := by
  unfold viterbiStep
  dsimp only
  have hres :
      (letters.map fun s =>
        (s, letters.foldl
          (fun acc s0 =>
            if acc.1 <
                ((letters.map fun x => (x, g x)).lookup s0).getD 0 *
                  getP trans s0 s * getP emis s ct then
              (((letters.map fun x => (x, g x)).lookup s0).getD 0 *
                getP trans s0 s * getP emis s ct, some s0)
            else acc)
          ((0 : ℚ), (none : Option Char))))
      = letters.map fun s =>
          (s, (specStep trans emis ct g s,
            argmaxFirst (fun s0 => g s0 * getP trans s0 s * getP emis s ct)
              letters)) := by
    apply List.map_congr_left
    intro s _
    have hfold := foldl_congr_mem letters
      (fun (acc : ℚ × Option Char) s0 =>
        if acc.1 <
            ((letters.map fun x => (x, g x)).lookup s0).getD 0 *
              getP trans s0 s * getP emis s ct then
          (((letters.map fun x => (x, g x)).lookup s0).getD 0 *
            getP trans s0 s * getP emis s ct, some s0)
        else acc)
      (fun (acc : ℚ × Option Char) s0 =>
        if acc.1 < g s0 * getP trans s0 s * getP emis s ct then
          (g s0 * getP trans s0 s * getP emis s ct, some s0)
        else acc)
      ((0 : ℚ), (none : Option Char))
      (fun b2 s0 hs0 => by
        simp only [lookup_map_self g letters s0 hs0, Option.getD_some])
    rw [hfold, foldArg_spec _ letters letters_ne_nil fun s0 _ =>
      mul_pos (mul_pos (hg s0) (getP_pos trans ht s0 s))
        (getP_pos emis he s ct)]
    rfl
  rw [hres, List.map_map, List.filterMap_map]
  refine Prod.ext ?_ ?_ <;> dsimp only
  · apply List.map_congr_left
    intro s _
    rfl
  · rw [filterMap_congr_mem letters _
      (fun s => some (s, specPathStep trans emis ct g p s))
      (fun s hs => by
        obtain ⟨a, ha⟩ := Option.isSome_iff_exists.mp
          (argmaxFirst_isSome
            (fun s0 => g s0 * getP trans s0 s * getP emis s ct) letters
            letters_ne_nil)
        have hmem := argmaxFirst_mem _ _ _ ha
        simp [Function.comp_apply, ha, specPathStep,
          lookup_map_self p letters a hmem])]
    exact filterMap_some_eq_map _ letters

theorem specLevels_pos (trans emis : Table) (ht : PosTable trans)
    (he : PosTable emis) :
    ∀ (cs : List Char) (g : Char → ℚ) (p : Char → List Char),
      (∀ s : Char, 0 < g s) →
      ∀ s : Char, 0 < (specLevels trans emis cs (g, p)).1 s := by
  intro cs
  induction cs with
  | nil => intro g p hg s; exact hg s
  | cons c cs ih =>
      intro g p hg s
      exact ih _ _ (specStep_pos trans emis c g hg ht he) s

theorem viterbiLevels_spec (trans emis : Table) (ht : PosTable trans)
    (he : PosTable emis) :
    ∀ (cs : List Char) (g : Char → ℚ) (p : Char → List Char),
      (∀ s : Char, 0 < g s) →
      cs.foldl (fun st ct => viterbiStep trans emis ct st)
          (letters.map fun s => (s, g s), letters.map fun s => (s, p s))
        = (letters.map fun s => (s, (specLevels trans emis cs (g, p)).1 s),
           letters.map fun s => (s, (specLevels trans emis cs (g, p)).2 s)) := by
  intro cs
  induction cs with
  | nil => intro g p hg; rfl
  | cons c cs ih =>
      intro g p hg
      simp only [List.foldl_cons]
      rw [viterbiStep_spec trans emis c g p hg ht he]
      exact ih _ _ (specStep_pos trans emis c g hg ht he)

theorem viterbiFinal_spec (trans : Table) (G : Char → ℚ)
    (hG : ∀ s : Char, 0 < G s) (ht : PosTable trans) :
    viterbiFinal trans (letters.map fun s => (s, G s))
      = (maxOver (fun s => G s * getP trans s '$') letters,
         argmaxFirst (fun s => G s * getP trans s '$') letters) := by
  unfold viterbiFinal
  have hfold := foldl_congr_mem letters
    (fun (acc : ℚ × Option Char) s =>
      if acc.1 <
          (((letters.map fun x => (x, G x)).lookup s).getD 0) *
            getP trans s '$' then
        ((((letters.map fun x => (x, G x)).lookup s).getD 0) *
          getP trans s '$', some s)
      else acc)
    (fun (acc : ℚ × Option Char) s =>
      if acc.1 < G s * getP trans s '$' then
        (G s * getP trans s '$', some s)
      else acc)
    ((0 : ℚ), (none : Option Char))
    (fun b2 s hs => by
      simp only [lookup_map_self G letters s hs, Option.getD_some])
  dsimp only
  rw [hfold]
  exact foldArg_spec _ letters letters_ne_nil fun s _ =>
    mul_pos (hG s) (getP_pos trans ht s '$')

theorem viterbi_eq_specDecode (typed : List Char) (trans emis : Table)
    (h : typed ≠ []) (ht : PosTable trans) (he : PosTable emis) :
    viterbi typed trans emis = some (specDecode typed trans emis) := by
  cases typed with
  | nil => exact absurd rfl h
  | cons c0 rest =>
      have hg0 : ∀ s : Char, 0 < getP trans '^' s * getP emis s c0 :=
        fun s => mul_pos (getP_pos trans ht _ _) (getP_pos emis he _ _)
      have hlev := viterbiLevels_spec trans emis ht he rest
        (fun s => getP trans '^' s * getP emis s c0) (fun s => [s]) hg0
      have hG : ∀ s : Char, 0 <
          (specLevels trans emis rest
            ((fun s => getP trans '^' s * getP emis s c0),
             fun s => [s])).1 s :=
        specLevels_pos trans emis ht he rest _ _ hg0
      have hfin := viterbiFinal_spec trans _ hG ht
      obtain ⟨a, ha⟩ := Option.isSome_iff_exists.mp
        (argmaxFirst_isSome
          (fun s =>
            (specLevels trans emis rest
              ((fun s => getP trans '^' s * getP emis s c0),
               fun s => [s])).1 s * getP trans s '$')
          letters letters_ne_nil)
      have hmem := argmaxFirst_mem _ _ _ ha
      dsimp only at hlev
      unfold viterbi viterbiLevels viterbiInit
      dsimp only
      rw [hlev, hfin]
      unfold specDecode
      dsimp only
      rw [ha]
      dsimp only
      simp only [Option.getD_some,
        lookup_map_self
          (specLevels trans emis rest
            ((fun s => getP trans '^' s * getP emis s c0),
             fun s => [s])).2 letters a hmem]

theorem viterbiLevels_eq (trans emis : Table) (c0 : Char) (cs : List Char)
    (ht : PosTable trans) (he : PosTable emis) :
    viterbiLevels trans emis c0 cs
      = (letters.map fun s =>
           (s, (specLevels trans emis cs
             ((fun s => getP trans '^' s * getP emis s c0),
              fun s => [s])).1 s),
         letters.map fun s =>
           (s, (specLevels trans emis cs
             ((fun s => getP trans '^' s * getP emis s c0),
              fun s => [s])).2 s)) := by
  have hlev := viterbiLevels_spec trans emis ht he cs
    (fun s => getP trans '^' s * getP emis s c0) (fun s => [s])
    (fun s => mul_pos (getP_pos trans ht _ _) (getP_pos emis he _ _))
  dsimp only at hlev
  unfold viterbiLevels viterbiInit
  exact hlev

theorem specLevels_path_length (trans emis : Table) :
    ∀ (cs : List Char) (g : Char → ℚ) (p : Char → List Char) (k : ℕ),
      (∀ s ∈ letters, (p s).length = k) →
      ∀ s ∈ letters,
        ((specLevels trans emis cs (g, p)).2 s).length = k + cs.length := by
  intro cs
  induction cs with
  | nil => intro g p k hp s hs; simpa using hp s hs
  | cons c cs ih =>
      intro g p k hp s hs
      have hstep : ∀ s2 ∈ letters,
          (specPathStep trans emis c g p s2).length = k + 1 := by
        intro s2 _
        unfold specPathStep
        obtain ⟨a, ha⟩ := Option.isSome_iff_exists.mp
          (argmaxFirst_isSome
            (fun s0 => g s0 * getP trans s0 s2 * getP emis s2 c)
            letters letters_ne_nil)
        rw [ha]
        simp [hp a (argmaxFirst_mem _ _ _ ha)]
      have hr := ih (specStep trans emis c g)
        (specPathStep trans emis c g p) (k + 1) hstep s hs
      have : (specLevels trans emis (c :: cs) (g, p)).2 s
          = (specLevels trans emis cs
              (specStep trans emis c g,
               specPathStep trans emis c g p)).2 s := rfl
      rw [this, hr, List.length_cons]
      omega

theorem specLevels_path_alphabet (trans emis : Table) :
    ∀ (cs : List Char) (g : Char → ℚ) (p : Char → List Char),
      (∀ s ∈ letters, ∀ c2 ∈ p s, c2 ∈ letters) →
      ∀ s ∈ letters, ∀ c2 ∈ (specLevels trans emis cs (g, p)).2 s,
        c2 ∈ letters := by
  intro cs
  induction cs with
  | nil => intro g p hp s hs; exact hp s hs
  | cons c cs ih =>
      intro g p hp s hs
      have hstep : ∀ s2 ∈ letters, ∀ c2 ∈ specPathStep trans emis c g p s2,
          c2 ∈ letters := by
        intro s2 hs2 c2 hc2
        unfold specPathStep at hc2
        obtain ⟨a, ha⟩ := Option.isSome_iff_exists.mp
          (argmaxFirst_isSome
            (fun s0 => g s0 * getP trans s0 s2 * getP emis s2 c)
            letters letters_ne_nil)
        rw [ha] at hc2
        simp only [Option.getD_some, List.mem_append,
          List.mem_singleton] at hc2
        rcases hc2 with hc2 | hc2
        · exact hp a (argmaxFirst_mem _ _ _ ha) c2 hc2
        · rw [hc2]; exact hs2
      exact ih (specStep trans emis c g)
        (specPathStep trans emis c g p) hstep s hs

theorem specDecode_length (typed : List Char) (trans emis : Table)
    (h : typed ≠ []) :
    (specDecode typed trans emis).length = typed.length := by
  cases typed with
  | nil => exact absurd rfl h
  | cons c0 rest =>
      unfold specDecode
      dsimp only
      obtain ⟨a, ha⟩ := Option.isSome_iff_exists.mp
        (argmaxFirst_isSome
          (fun s =>
            (specLevels trans emis rest
              ((fun s => getP trans '^' s * getP emis s c0),
               fun s => [s])).1 s * getP trans s '$')
          letters letters_ne_nil)
      rw [ha]
      simp only [Option.getD_some]
      have := specLevels_path_length trans emis rest
        (fun s => getP trans '^' s * getP emis s c0) (fun s => [s]) 1
        (fun s _ => rfl) a (argmaxFirst_mem _ _ _ ha)
      rw [this, List.length_cons]
      omega

theorem specDecode_alphabet (typed : List Char) (trans emis : Table)
    (h : typed ≠ []) :
    ∀ c ∈ specDecode typed trans emis, c ∈ letters := by
  cases typed with
  | nil => exact absurd rfl h
  | cons c0 rest =>
      unfold specDecode
      dsimp only
      obtain ⟨a, ha⟩ := Option.isSome_iff_exists.mp
        (argmaxFirst_isSome
          (fun s =>
            (specLevels trans emis rest
              ((fun s => getP trans '^' s * getP emis s c0),
               fun s => [s])).1 s * getP trans s '$')
          letters letters_ne_nil)
      rw [ha]
      simp only [Option.getD_some]
      exact specLevels_path_alphabet trans emis rest
        (fun s => getP trans '^' s * getP emis s c0) (fun s => [s])
        (fun s hs c2 hc2 => by
          rw [List.mem_singleton.mp hc2]; exact hs)
        a (argmaxFirst_mem _ _ _ ha)

/-! ## Claim theorems: the decoder -/

/-- C1: for every non-empty observed word and any (positive-valued)
emission/transition tables, `viterbi` returns exactly the letter sequence
prescribed by the spec's dynamic program `specDecode`: position-0 scores
`log P(s|start) + log P(observed[0]|s)`, recurrence scores maximised over
the previous letter, final selection by `score + log P(end|s)`, every
missing entry floored at `1e-6`, and every tie won by the first letter in
alphabetic order attaining the maximum (scores carried as products of
probabilities, which orders exactly as the sums of their logs). -/
theorem viterbi_matches_spec_dp (typed : List Char) (trans emis : Table)
    (h : typed ≠ []) (ht : PosTable trans) (he : PosTable emis) :
    viterbi typed trans emis = some (specDecode typed trans emis) :=
  viterbi_eq_specDecode typed trans emis h ht he

/-- Witness for C1 at the concrete input `"c"` with empty tables. -/
theorem viterbi_matches_spec_dp_witness :
    (['c'] : List Char) ≠ [] ∧
      viterbi ['c'] [] [] = some (specDecode ['c'] [] []) :=
  ⟨by decide,
   viterbi_matches_spec_dp ['c'] [] [] (by decide)
     (fun r hr => absurd hr (List.not_mem_nil r))
     (fun r hr => absurd hr (List.not_mem_nil r))⟩

/-- C2, counterexample to the claim as stated: on the zero-length observed
word the decoder does not return a string at all (Python raises
`IndexError` on `typed[0]`; the embedding returns `none`). -/
theorem viterbi_nil_no_result : viterbi [] [] [] = none := rfl

/-- C2, amended: for every NON-EMPTY observed word (and positive-valued
tables, the domain of the Python `math.log` calls), `viterbi` returns a
string of exactly the same length as its input whose characters all lie
in the 26-letter lowercase alphabet. -/
theorem viterbi_length_preserving (typed : List Char) (trans emis : Table)
    (h : typed ≠ []) (ht : PosTable trans) (he : PosTable emis) :
    ∃ r, viterbi typed trans emis = some r ∧
      r.length = typed.length ∧ ∀ c ∈ r, c ∈ letters :=
  ⟨specDecode typed trans emis,
   viterbi_eq_specDecode typed trans emis h ht he,
   specDecode_length typed trans emis h,
   specDecode_alphabet typed trans emis h⟩

/-- Witness for C2 at the concrete input `"ab"` with empty tables. -/
theorem viterbi_length_preserving_witness :
    (['a', 'b'] : List Char) ≠ [] ∧
      ∃ r, viterbi ['a', 'b'] [] [] = some r ∧
        r.length = (['a', 'b'] : List Char).length ∧
        ∀ c ∈ r, c ∈ letters :=
  ⟨by decide,
   viterbi_length_preserving ['a', 'b'] [] [] (by decide)
     (fun r hr => absurd hr (List.not_mem_nil r))
     (fun r hr => absurd hr (List.not_mem_nil r))⟩

/-- C3: the spec requires the zero-length observed word to be explicitly
guarded (returning the empty string), but the code is NOT guarded: it
evaluates `typed[0]` unconditionally and raises `IndexError` (embedded as
`none`) for every pair of tables. -/
theorem viterbi_nil_raises (trans emis : Table) :
    viterbi [] trans emis = none := rfl

/-- C9: for every non-empty observed word and positive-valued tables,
every Viterbi score `V[t][s]` is finite — never `-inf`, i.e. the product
score is positive — thanks to the `1e-6` floor, and the final
`best_state` is never `None`, so the no-finite-score fallback branch is
unreachable. -/
theorem viterbi_no_fallback (trans emis : Table) (c0 : Char)
    (rest : List Char) (ht : PosTable trans) (he : PosTable emis) :
    (∀ t : ℕ, ∀ q ∈ (viterbiLevels trans emis c0 (rest.take t)).1,
        0 < q.2) ∧
      ((viterbiFinal trans
          (viterbiLevels trans emis c0 rest).1).2).isSome = true := by
  have hG : ∀ cs : List Char, ∀ s : Char,
      0 < (specLevels trans emis cs
        ((fun s => getP trans '^' s * getP emis s c0),
         fun s => [s])).1 s :=
    fun cs => specLevels_pos trans emis ht he cs _ _
      (fun s => mul_pos (getP_pos trans ht _ _) (getP_pos emis he _ _))
  constructor
  · intro t q hq
    rw [viterbiLevels_eq trans emis c0 (rest.take t) ht he] at hq
    obtain ⟨s, _, hqs⟩ := List.mem_map.mp hq
    rw [← hqs]
    exact hG (rest.take t) s
  · rw [viterbiLevels_eq trans emis c0 rest ht he]
    have hfin := viterbiFinal_spec trans
      (fun s =>
        (specLevels trans emis rest
          ((fun s => getP trans '^' s * getP emis s c0),
           fun s => [s])).1 s)
      (hG rest) ht
    dsimp only
    rw [hfin]
    exact argmaxFirst_isSome _ letters letters_ne_nil

/-- Witness for C9 at the concrete input `"ab"` with empty tables. -/
theorem viterbi_no_fallback_witness :
    (∀ t : ℕ, ∀ q ∈ (viterbiLevels [] [] 'a' (['b'].take t)).1, 0 < q.2) ∧
      ((viterbiFinal [] (viterbiLevels [] [] 'a' ['b']).1).2).isSome
        = true :=
  viterbi_no_fallback [] [] 'a' ['b']
    (fun r hr => absurd hr (List.not_mem_nil r))
    (fun r hr => absurd hr (List.not_mem_nil r))

/-! ## The argmin fold of the snapper -/


theorem foldMin {α : Type} (f : α → ℕ) (xs : List α) :
    ∀ a : α,
      xs.foldl (fun acc w => if f w < acc.2 then (w, f w) else acc) (a, f a)
        = (pickMin f a xs, f (pickMin f a xs)) := by
  induction xs with
  | nil => intro a; rfl
  | cons y ys ih =>
      intro a
      by_cases hy : f y < f a
      · simp only [List.foldl_cons, if_pos hy, pickMin, ih y]
      · simp only [List.foldl_cons, if_neg hy, pickMin, ih a]

theorem argminFirst_cons_true {α : Type} {f : α → ℕ} {x : α} {l : List α}
    (h : (l.all fun y => decide (f x ≤ f y)) = true) :
    argminFirst f (x :: l) = some x := by
  simp only [argminFirst, h, if_true]

theorem argminFirst_cons_false {α : Type} {f : α → ℕ} {x : α} {l : List α}
    (h : (l.all fun y => decide (f x ≤ f y)) = false) :
    argminFirst f (x :: l) = argminFirst f l := by
  simp only [argminFirst, h, Bool.false_eq_true, if_false]

theorem all_ge_of_forall {α : Type} {f : α → ℕ} {x : α} {l : List α}
    (h : ∀ y ∈ l, f x ≤ f y) :
    (l.all fun y => decide (f x ≤ f y)) = true := by
  simp only [List.all_eq_true, decide_eq_true_iff]
  exact h

theorem all_ge_false_of_lt {α : Type} {f : α → ℕ} {x : α} {l : List α}
    {z : α} (hz : z ∈ l) (h : f z < f x) :
    (l.all fun y => decide (f x ≤ f y)) = false := by
  apply Bool.eq_false_iff.mpr
  intro hall
  exact absurd (decide_eq_true_iff.mp (List.all_eq_true.mp hall z hz))
    (not_le.mpr h)

theorem pickMin_argminFirst {α : Type} (f : α → ℕ) (xs : List α) :
    ∀ a : α, argminFirst f (a :: xs) = some (pickMin f a xs) := by
  induction xs with
  | nil => intro a; simp [argminFirst, pickMin]
  | cons y ys ih =>
      intro a
      by_cases hy : f y < f a
      · rw [argminFirst_cons_false
          (all_ge_false_of_lt (List.mem_cons_self y ys) hy)]
        simp only [pickMin, if_pos hy]
        exact ih y
      · simp only [pickMin, if_neg hy]
        by_cases hall : ∀ z ∈ ys, f a ≤ f z
        · have h1 := all_ge_of_forall hall
          have hca : ((y :: ys).all fun w => decide (f a ≤ f w)) = true := by
            simp only [List.all_cons, h1, Bool.and_true,
              decide_eq_true_iff]
            exact not_lt.mp hy
          rw [argminFirst_cons_true hca]
          have h2 := (ih a).symm.trans (argminFirst_cons_true h1)
          rw [← Option.some.injEq] at h2 ⊢
          exact h2.symm ▸ rfl
        · obtain ⟨z, hz, hzlt⟩ : ∃ z ∈ ys, f z < f a := by
            by_contra hc
            push_neg at hc
            exact hall fun z hzz => hc z hzz
          have h1 : (ys.all fun w => decide (f a ≤ f w)) = false :=
            all_ge_false_of_lt hz hzlt
          have hca : ((y :: ys).all fun w => decide (f a ≤ f w)) = false :=
            all_ge_false_of_lt (List.mem_cons_of_mem y hz) hzlt
          have h4 : (ys.all fun w => decide (f y ≤ f w)) = false :=
            all_ge_false_of_lt hz (lt_of_lt_of_le hzlt (not_lt.mp hy))
          rw [argminFirst_cons_false hca, argminFirst_cons_false h4,
            ← argminFirst_cons_false h1, ih a]

theorem foldMin_cases {α : Type} (f : α → ℕ) :
    ∀ (l : List α) (acc : α × ℕ),
      (l.foldl (fun acc w => if f w < acc.2 then (w, f w) else acc) acc
          = acc ∧ ∀ w ∈ l, acc.2 ≤ f w) ∨
      (∃ w ∈ l,
        l.foldl (fun acc w => if f w < acc.2 then (w, f w) else acc) acc
            = (w, f w) ∧ f w < acc.2) := by
  intro l
  induction l with
  | nil => intro acc; exact Or.inl ⟨rfl, by simp⟩
  | cons y ys ih =>
      intro acc
      by_cases hy : f y < acc.2
      · rcases ih (y, f y) with ⟨heq, hall⟩ | ⟨w, hw, heq, hlt⟩
        · refine Or.inr ⟨y, List.mem_cons_self y ys, ?_, hy⟩
          simpa [List.foldl_cons, if_pos hy] using heq
        · refine Or.inr ⟨w, List.mem_cons_of_mem y hw, ?_, hlt.trans hy⟩
          simpa [List.foldl_cons, if_pos hy] using heq
      · rcases ih acc with ⟨heq, hall⟩ | ⟨w, hw, heq, hlt⟩
        · refine Or.inl ⟨?_, ?_⟩
          · simpa [List.foldl_cons, if_neg hy] using heq
          · intro w hw
            rcases List.mem_cons.mp hw with hw | hw
            · rw [hw]; exact not_lt.mp hy
            · exact hall w hw
        · refine Or.inr ⟨w, List.mem_cons_of_mem y hw, ?_, hlt⟩
          simpa [List.foldl_cons, if_neg hy] using heq

/-! ## Snapper helper lemmas -/

theorem closest_eq_snapSpec (candidate : List Char)
    (vocab : List (List Char))
    (h : ∀ w ∈ vocab, distance w candidate < 10 ^ 9) :
    closest_known_word candidate vocab = snapSpec candidate vocab := by
  unfold closest_known_word snapSpec
  by_cases hmem : candidate ∈ vocab
  · simp [hmem]
  · rw [if_neg hmem, if_neg hmem]
    cases vocab with
    | nil => simp [argminFirst]
    | cons x xs =>
        have hx : distance x candidate < 10 ^ 9 :=
          h x (List.mem_cons_self x xs)
        dsimp only
        rw [List.foldl_cons, if_pos hx,
          foldMin (fun w => distance w candidate) xs x,
          pickMin_argminFirst (fun w => distance w candidate) xs x]
        rfl

theorem closest_mem_of_exists (candidate : List Char)
    (vocab : List (List Char))
    (h : ∃ w ∈ vocab, distance w candidate < 10 ^ 9) :
    closest_known_word candidate vocab ∈ vocab := by
  unfold closest_known_word
  by_cases hmem : candidate ∈ vocab
  · rw [if_pos hmem]; exact hmem
  · rw [if_neg hmem]
    dsimp only
    rcases foldMin_cases (fun w => distance w candidate) vocab
      (candidate, 10 ^ 9) with ⟨heq, hall⟩ | ⟨w, hw, heq, _⟩
    · obtain ⟨w, hw, hlt⟩ := h
      exact absurd (hall w hw) (not_le.mpr hlt)
    · rw [heq]; exact hw

theorem closest_eq_candidate_of_forall (candidate : List Char)
    (vocab : List (List Char)) (hmem : candidate ∉ vocab)
    (h : ∀ w ∈ vocab, ¬ distance w candidate < 10 ^ 9) :
    closest_known_word candidate vocab = candidate := by
  unfold closest_known_word
  rw [if_neg hmem]
  dsimp only
  rcases foldMin_cases (fun w => distance w candidate) vocab
    (candidate, 10 ^ 9) with ⟨heq, _⟩ | ⟨w, hw, _, hlt⟩
  · rw [heq]
  · exact absurd hlt (h w hw)

theorem distance_nil (w : List Char) : distance w [] = w.length := by
  unfold distance
  rw [List.zip_nil_right, List.countP_nil, List.length_nil]
  simp

theorem snapSpec_single (c w : List Char) (hmem : c ∉ [w]) :
    snapSpec c [w] = w := by
  unfold snapSpec
  rw [if_neg hmem, argminFirst_cons_true (by rfl)]
  rfl


theorem bigWord_length : bigWord.length = 10 ^ 9 := by
  rw [bigWord, List.length_replicate]

theorem nil_ne_bigWord : ([] : List Char) ≠ bigWord := by
  intro hcontra
  have hlen := congrArg List.length hcontra
  rw [bigWord_length, List.length_nil] at hlen
  exact absurd hlen.symm (by norm_num)

theorem nil_notMem_bigWord : ([] : List Char) ∉ [bigWord] := by
  intro h
  exact nil_ne_bigWord (List.mem_singleton.mp h)

theorem bigWord_distance : distance bigWord [] = 10 ^ 9 := by
  rw [distance_nil, bigWord_length]

theorem closest_bigWord : closest_known_word [] [bigWord] = [] :=
  closest_eq_candidate_of_forall [] [bigWord] nil_notMem_bigWord
    (fun w hw => by
      rw [List.mem_singleton.mp hw, bigWord_distance]
      exact lt_irrefl (10 ^ 9))

theorem snapSpec_bigWord : snapSpec [] [bigWord] = bigWord :=
  snapSpec_single [] bigWord nil_notMem_bigWord

/-! ## Claim theorems: the snapper -/

/-- C4, counterexample to the claim as stated: with vocabulary
`[bigWord]` and candidate `""`, the minimum-distance vocabulary word is
`bigWord`, but its distance `10**9` is not strictly below the initial
`best_score` sentinel `10**9`, so the code returns the candidate instead
of the spec's minimum. -/
theorem snap_spec_mismatch_at_sentinel :
    closest_known_word [] [bigWord] ≠ snapSpec [] [bigWord] := by
  rw [closest_bigWord, snapSpec_bigWord]
  exact nil_ne_bigWord

/-- C4, amended: provided every vocabulary word's distance to the
candidate is strictly below the `10**9` sentinel (true for all realistic
vocabularies), `closest_known_word` equals the spec's snapping rule:
exact hits unchanged, otherwise the vocabulary word of minimum distance,
the first encountered minimum winning ties. -/
theorem snap_matches_spec (candidate : List Char)
    (vocab : List (List Char))
    (h : ∀ w ∈ vocab, distance w candidate < 10 ^ 9) :
    closest_known_word candidate vocab = snapSpec candidate vocab :=
  closest_eq_snapSpec candidate vocab h

/-- Witness for C4 at the spec's own example `snap("cet", [cat,cot,cap])`. -/
theorem snap_matches_spec_witness :
    (∀ w ∈ [['c', 'a', 't'], ['c', 'o', 't'], ['c', 'a', 'p']],
        distance w ['c', 'e', 't'] < 10 ^ 9) ∧
      closest_known_word ['c', 'e', 't']
          [['c', 'a', 't'], ['c', 'o', 't'], ['c', 'a', 'p']]
        = snapSpec ['c', 'e', 't']
            [['c', 'a', 't'], ['c', 'o', 't'], ['c', 'a', 'p']] :=
  ⟨by decide, snap_matches_spec _ _ (by decide)⟩

/-- C7, counterexample to the claim as stated: the vocabulary `[bigWord]`
is non-empty, yet the snapper's output for candidate `""` is not a member
of it (the `10**9` sentinel rejects the only word). -/
theorem snap_output_notin_vocab :
    closest_known_word [] [bigWord] ∉ [bigWord] := by
  rw [closest_bigWord]
  exact nil_notMem_bigWord

/-- C7, amended: whenever some vocabulary word's distance to the
candidate is strictly below `10**9` (in particular for every non-empty
realistic vocabulary), the snapper's output is a member of the
vocabulary. -/
theorem snap_output_in_vocab (candidate : List Char)
    (vocab : List (List Char))
    (h : ∃ w ∈ vocab, distance w candidate < 10 ^ 9) :
    closest_known_word candidate vocab ∈ vocab :=
  closest_mem_of_exists candidate vocab h

/-- Witness for C7 at candidate `"x"`, vocabulary `["ab"]`. -/
theorem snap_output_in_vocab_witness :
    (∃ w ∈ [['a', 'b']], distance w ['x'] < 10 ^ 9) ∧
      closest_known_word ['x'] [['a', 'b']] ∈ [['a', 'b']] :=
  ⟨by decide, snap_output_in_vocab _ _ (by decide)⟩

/-- C8: with an empty vocabulary the snapper returns the candidate
unchanged and does not fail. -/
theorem snap_empty_vocab (candidate : List Char) :
    closest_known_word candidate [] = candidate := by
  unfold closest_known_word
  simp

/-- C10: `closest_known_word` starts from the sentinel score `10**9` and
replaces the default (the candidate) only on strict improvement; for a
candidate absent from the vocabulary the output is a vocabulary word iff
some vocabulary word's distance is strictly below `10**9`, and otherwise
the candidate itself (not in the vocabulary) is returned. -/
theorem snap_sentinel_semantics (candidate : List Char)
    (vocab : List (List Char)) (hmem : candidate ∉ vocab) :
    (closest_known_word candidate vocab ∈ vocab ↔
        ∃ w ∈ vocab, distance w candidate < 10 ^ 9) ∧
      ((∀ w ∈ vocab, ¬ distance w candidate < 10 ^ 9) →
        closest_known_word candidate vocab = candidate) := by
  constructor
  · constructor
    · intro hin
      by_contra hno
      push_neg at hno
      have heq := closest_eq_candidate_of_forall candidate vocab hmem
        (fun w hw => not_lt.mpr (hno w hw))
      rw [heq] at hin
      exact hmem hin
    · exact closest_mem_of_exists candidate vocab
  · exact closest_eq_candidate_of_forall candidate vocab hmem

/-- Witness for C10 at candidate `"x"`, vocabulary `["ab"]`. -/
theorem snap_sentinel_semantics_witness :
    (['x'] : List Char) ∉ [['a', 'b']] ∧
      ((closest_known_word ['x'] [['a', 'b']] ∈ [['a', 'b']] ↔
          ∃ w ∈ [['a', 'b']], distance w ['x'] < 10 ^ 9) ∧
        ((∀ w ∈ [['a', 'b']], ¬ distance w ['x'] < 10 ^ 9) →
          closest_known_word ['x'] [['a', 'b']] = ['x'])) :=
  ⟨by decide, snap_sentinel_semantics ['x'] [['a', 'b']] (by decide)⟩

/-! ## Trainer: counting lemmas -/

theorem cntAt_bump2_self (m : List (Char × List (Char × ℕ))) (c t : Char) :
    cntAt (bump2 m c t) c t = some ((cntAt m c t).getD 0 + 1) := by
  unfold cntAt bump2 bumpRow
  rw [lookup_setKey_self, Option.getD_some, lookup_setKey_self]

theorem cntAt_bump2_ne_fst (m : List (Char × List (Char × ℕ)))
    (c t c2 t2 : Char) (h : c2 ≠ c) :
    cntAt (bump2 m c t) c2 t2 = cntAt m c2 t2 := by
  unfold cntAt bump2
  rw [lookup_setKey_ne _ _ _ _ h]

theorem cntAt_bump2_ne_snd (m : List (Char × List (Char × ℕ)))
    (c t t2 : Char) (h : t2 ≠ t) :
    cntAt (bump2 m c t) c t2 = cntAt m c t2 := by
  unfold cntAt bump2 bumpRow
  rw [lookup_setKey_self, Option.getD_some, lookup_setKey_ne _ _ _ _ h]

theorem sum_map_setKey_bump (row : List (Char × ℕ)) (t : Char) :
    ((setKey row t (((row.lookup t).getD 0) + 1)).map fun p => p.2).sum
      = ((row.map fun p => p.2).sum) + 1 := by
  induction row with
  | nil => rfl
  | cons q rest ih =>
      obtain ⟨k0, v0⟩ := q
      by_cases h : k0 = t
      · subst h
        have hlk : (((k0, v0) :: rest).lookup k0) = some v0 := by
          simp [List.lookup]
        have hsk : setKey ((k0, v0) :: rest) k0 (v0 + 1)
            = (k0, v0 + 1) :: rest := by
          simp [setKey]
        rw [hlk, Option.getD_some, hsk, List.map_cons, List.map_cons,
          List.sum_cons, List.sum_cons]
        omega
      · have hlk : (((k0, v0) :: rest).lookup t) = rest.lookup t := by
          simp [List.lookup, beq_ne_false fun hh => h hh.symm]
        have hsk : setKey ((k0, v0) :: rest) t
              (((rest.lookup t).getD 0) + 1)
            = (k0, v0) :: setKey rest t (((rest.lookup t).getD 0) + 1) := by
          simp [setKey, h]
        rw [hlk, hsk, List.map_cons, List.map_cons, List.sum_cons,
          List.sum_cons, ih]
        omega

theorem rowSumAt_bump2_self (m : List (Char × List (Char × ℕ)))
    (c t : Char) : rowSumAt (bump2 m c t) c = rowSumAt m c + 1 := by
  unfold rowSumAt bump2 bumpRow
  rw [lookup_setKey_self, Option.getD_some, sum_map_setKey_bump]

theorem rowSumAt_bump2_ne (m : List (Char × List (Char × ℕ)))
    (c t c2 : Char) (h : c2 ≠ c) :
    rowSumAt (bump2 m c t) c2 = rowSumAt m c2 := by
  unfold rowSumAt bump2
  rw [lookup_setKey_ne _ _ _ _ h]


theorem WFCounts_nil : WFCounts [] := fun r hr => absurd hr (List.not_mem_nil r)

theorem WFCounts_bump2 (m : List (Char × List (Char × ℕ))) (c t : Char)
    (h : WFCounts m) : WFCounts (bump2 m c t) := by
  intro r hr
  rcases mem_setKey _ _ _ r hr with hm | hm
  · exact h r hm
  · rw [hm]
    refine ⟨setKey_ne_nil _ _ _, ?_⟩
    intro p hp
    rcases mem_setKey _ _ _ p hp with hp2 | hp2
    · cases hrow : m.lookup c with
      | none => rw [hrow] at hp2; cases hp2
      | some row0 =>
          rw [hrow] at hp2
          exact (h (c, row0) (lookup_mem _ _ _ hrow)).2 p hp2
    · rw [hp2]
      exact Nat.le_add_left 1 _

theorem cntAt_foldl (events : List (Char × Char)) :
    ∀ (acc : List (Char × List (Char × ℕ))) (c t : Char),
      (cntAt (events.foldl (fun m e => bump2 m e.1 e.2) acc) c t).getD 0
        = (cntAt acc c t).getD 0 + eventCount events c t := by
  induction events with
  | nil => intro acc c t; simp [eventCount]
  | cons e L ih =>
      intro acc c t
      obtain ⟨e1, e2⟩ := e
      rw [List.foldl_cons]
      dsimp only
      rw [ih (bump2 acc e1 e2) c t]
      unfold eventCount
      rw [List.countP_cons]
      by_cases h1 : (e1, e2) = (c, t)
      · have hc : e1 = c := congrArg Prod.fst h1
        have htt : e2 = t := congrArg Prod.snd h1
        subst hc htt
        rw [cntAt_bump2_self, Option.getD_some]
        have hd : (decide ((e1, e2) = (e1, e2))) = true := by simp
        rw [hd, if_pos rfl]
        omega
      · have hunch : cntAt (bump2 acc e1 e2) c t = cntAt acc c t := by
          by_cases hc : c = e1
          · have hte : t ≠ e2 := by
              intro hh
              exact h1 (by rw [hc, hh])
            rw [hc]
            exact cntAt_bump2_ne_snd acc e1 e2 t hte
          · exact cntAt_bump2_ne_fst acc e1 e2 c t hc
        have hd : (decide ((e1, e2) = (c, t))) = false := by
          simp only [decide_eq_false_iff_not]
          exact h1
        rw [hunch, hd, if_neg (by simp)]
        omega

theorem cntAt_isSome_foldl (events : List (Char × Char)) :
    ∀ (acc : List (Char × List (Char × ℕ))) (c t : Char),
      (cntAt (events.foldl (fun m e => bump2 m e.1 e.2) acc) c t).isSome
        = true ↔ (cntAt acc c t).isSome = true ∨ (c, t) ∈ events := by
  induction events with
  | nil => intro acc c t; simp
  | cons e L ih =>
      intro acc c t
      obtain ⟨e1, e2⟩ := e
      rw [List.foldl_cons]
      dsimp only
      rw [ih (bump2 acc e1 e2) c t]
      by_cases h1 : (e1, e2) = (c, t)
      · have hc : e1 = c := congrArg Prod.fst h1
        have htt : e2 = t := congrArg Prod.snd h1
        subst hc htt
        rw [cntAt_bump2_self]
        simp
      · have hunch : cntAt (bump2 acc e1 e2) c t = cntAt acc c t := by
          by_cases hc : c = e1
          · have hte : t ≠ e2 := by
              intro hh
              exact h1 (by rw [hc, hh])
            rw [hc]
            exact cntAt_bump2_ne_snd acc e1 e2 t hte
          · exact cntAt_bump2_ne_fst acc e1 e2 c t hc
        rw [hunch]
        constructor
        · rintro (h | h)
          · exact Or.inl h
          · exact Or.inr (List.mem_cons_of_mem _ h)
        · rintro (h | h)
          · exact Or.inl h
          · rcases List.mem_cons.mp h with h2 | h2
            · exact absurd h2.symm h1
            · exact Or.inr h2

theorem rowSumAt_foldl (events : List (Char × Char)) :
    ∀ (acc : List (Char × List (Char × ℕ))) (c : Char),
      rowSumAt (events.foldl (fun m e => bump2 m e.1 e.2) acc) c
        = rowSumAt acc c + rowTotal events c := by
  induction events with
  | nil => intro acc c; simp [rowTotal]
  | cons e L ih =>
      intro acc c
      obtain ⟨e1, e2⟩ := e
      rw [List.foldl_cons]
      dsimp only
      rw [ih (bump2 acc e1 e2) c]
      unfold rowTotal
      rw [List.countP_cons]
      by_cases h1 : e1 = c
      · subst h1
        rw [rowSumAt_bump2_self]
        have hd : (decide ((e1, e2).1 = e1)) = true := by simp
        rw [hd, if_pos rfl]
        omega
      · rw [rowSumAt_bump2_ne acc e1 e2 c fun hh => h1 hh.symm]
        have hd : (decide ((e1, e2).1 = c)) = false := by
          simp only [decide_eq_false_iff_not]
          exact h1
        rw [hd, if_neg (by simp)]
        omega

theorem WFCounts_foldl (events : List (Char × Char)) :
    ∀ (acc : List (Char × List (Char × ℕ))), WFCounts acc →
      WFCounts (events.foldl (fun m e => bump2 m e.1 e.2) acc) := by
  induction events with
  | nil => intro acc h; exact h
  | cons e L ih =>
      intro acc h
      rw [List.foldl_cons]
      exact ih _ (WFCounts_bump2 acc e.1 e.2 h)

theorem foldl_foldl_flatten {α β : Type} (step : β → α → β) :
    ∀ (LL : List (List α)) (acc : β),
      LL.foldl (fun m l => l.foldl step m) acc
        = LL.flatten.foldl step acc := by
  intro LL
  induction LL with
  | nil => intro acc; rfl
  | cons l LL ih =>
      intro acc
      rw [List.foldl_cons, List.flatten_cons, List.foldl_append, ih]

theorem compute_emissions_eq (pairs : List (List Char × List Char)) :
    compute_emissions pairs = eventTable (emissionEvents pairs) := by
  unfold compute_emissions eventTable countFold emissionEvents
  dsimp only
  rw [← foldl_foldl_flatten, List.foldl_map]

theorem compute_transitions_eq (pairs : List (List Char × List Char)) :
    compute_transitions pairs = eventTable (transitionEvents pairs) := by
  unfold compute_transitions eventTable countFold transitionEvents
  dsimp only
  rw [← foldl_foldl_flatten, List.foldl_map]

theorem foldl_add_eq (row : List (Char × ℕ)) :
    ∀ n : ℕ, row.foldl (fun acc p => acc + p.2) n
      = n + (row.map fun p => p.2).sum := by
  induction row with
  | nil => intro n; simp
  | cons q rest ih =>
      intro n
      rw [List.foldl_cons, ih (n + q.2), List.map_cons, List.sum_cons]
      omega

theorem lookup_normalizeRow (row : List (Char × ℕ)) (t : Char) :
    (normalizeRow row).lookup t
      = (row.lookup t).map
          (fun n : ℕ => (n : ℚ) / (((row.map fun p => p.2).sum : ℕ) : ℚ)) := by
  unfold normalizeRow
  dsimp only
  rw [foldl_add_eq row 0, Nat.zero_add]
  exact lookup_map_snd
    (fun n : ℕ => (n : ℚ) / (((row.map fun p => p.2).sum : ℕ) : ℚ)) row t

theorem rowSumAt_countFold (events : List (Char × Char)) (c : Char) :
    rowSumAt (countFold events) c = rowTotal events c := by
  unfold countFold
  have h := rowSumAt_foldl events [] c
  rw [show rowSumAt [] c = 0 from rfl, Nat.zero_add] at h
  exact h

theorem lookup2_eventTable (events : List (Char × Char)) (c t : Char) :
    lookup2 (eventTable events) c t
      = if 0 < eventCount events c t
        then some ((eventCount events c t : ℚ) / (rowTotal events c : ℚ))
        else none := by
  unfold lookup2 eventTable
  rw [lookup_map_snd normalizeRow (countFold events) c]
  cases hc : (countFold events).lookup c with
  | none =>
      have hcnt : cntAt (countFold events) c t = none := by
        unfold cntAt
        rw [hc]
        rfl
      have hmem : (c, t) ∉ events := by
        intro hmem
        have hs := (cntAt_isSome_foldl events [] c t).mpr (Or.inr hmem)
        unfold countFold at hcnt
        rw [hcnt] at hs
        cases hs
      have hcount : eventCount events c t = 0 := by
        unfold eventCount
        rw [List.countP_eq_zero]
        intro e he
        simp only [decide_eq_true_iff]
        intro hh
        exact hmem (hh ▸ he)
      rw [hcount, if_neg (lt_irrefl 0)]
      rfl
  | some row =>
      have hcnt : cntAt (countFold events) c t = row.lookup t := by
        unfold cntAt
        rw [hc]
        rfl
      rw [show ((some row).map normalizeRow).getD [] = normalizeRow row
        from rfl]
      rw [lookup_normalizeRow row t]
      have htotal : (row.map fun p => p.2).sum = rowTotal events c := by
        have h1 := rowSumAt_countFold events c
        unfold rowSumAt at h1
        rw [hc] at h1
        simpa using h1
      cases htt : row.lookup t with
      | none =>
          have hns : ¬ (cntAt (countFold events) c t).isSome = true := by
            rw [hcnt, htt]
            simp
          have hmem : (c, t) ∉ events := by
            intro hmem
            exact hns ((cntAt_isSome_foldl events [] c t).mpr
              (Or.inr hmem))
          have hcount : eventCount events c t = 0 := by
            unfold eventCount
            rw [List.countP_eq_zero]
            intro e he
            simp only [decide_eq_true_iff]
            intro hh
            exact hmem (hh ▸ he)
          rw [hcount, if_neg (lt_irrefl 0)]
          rfl
      | some n =>
          have hmem : (c, t) ∈ events := by
            have hs : (cntAt (countFold events) c t).isSome = true := by
              rw [hcnt, htt]
              rfl
            rcases (cntAt_isSome_foldl events [] c t).mp hs with h2 | h2
            · cases h2
            · exact h2
          have hpos : 0 < eventCount events c t := by
            unfold eventCount
            rw [List.countP_pos_iff]
            exact ⟨(c, t), hmem, by simp⟩
          have hval : n = eventCount events c t := by
            have h2 := cntAt_foldl events [] c t
            unfold countFold at hcnt
            rw [hcnt, htt,
              show cntAt ([] : List (Char × List (Char × ℕ))) c t = none
                from rfl] at h2
            simpa using h2
          rw [if_pos hpos, htotal, hval]
          rfl

theorem sum_map_div (l : List ℚ) (d : ℚ) :
    (l.map fun x => x / d).sum = l.sum / d := by
  induction l with
  | nil => simp
  | cons x xs ih => simp [ih, add_div]

theorem cast_sum_nat (l : List ℕ) :
    ((l.sum : ℕ) : ℚ) = (l.map fun n : ℕ => (n : ℚ)).sum := by
  induction l with
  | nil => simp
  | cons x xs ih => simp [ih]

theorem mem_le_sum_nat (l : List ℕ) (n : ℕ) (h : n ∈ l) : n ≤ l.sum := by
  induction l with
  | nil => cases h
  | cons x xs ih =>
      rw [List.sum_cons]
      rcases List.mem_cons.mp h with h2 | h2
      · omega
      · have := ih h2
        omega

theorem eventTable_rows (events : List (Char × Char)) :
    ∀ r ∈ eventTable events,
      (r.2.map fun p => p.2).sum = 1 ∧ ∀ p ∈ r.2, 0 < p.2 ∧ p.2 ≤ 1 := by
  intro r hr
  unfold eventTable at hr
  obtain ⟨r0, hr0, hr0eq⟩ := List.mem_map.mp hr
  obtain ⟨hne, hge⟩ := WFCounts_foldl events [] WFCounts_nil r0 hr0
  rw [← hr0eq]
  have htpos : 0 < (r0.2.map fun p => p.2).sum := by
    cases hrow : r0.2 with
    | nil => exact absurd hrow hne
    | cons q rest =>
        have hq : 1 ≤ q.2 := hge q (hrow ▸ List.mem_cons_self q rest)
        rw [List.map_cons, List.sum_cons]
        omega
  have htQ : (0 : ℚ) < (((r0.2.map fun p => p.2).sum : ℕ) : ℚ) := by
    exact_mod_cast htpos
  constructor
  · show ((normalizeRow r0.2).map fun p => p.2).sum = 1
    unfold normalizeRow
    dsimp only
    rw [foldl_add_eq r0.2 0, Nat.zero_add, List.map_map]
    have hmaps :
        ((fun p : Char × ℚ => p.2) ∘ fun p : Char × ℕ =>
          (p.1, (p.2 : ℚ) / (((r0.2.map fun p => p.2).sum : ℕ) : ℚ)))
        = (fun x => x / (((r0.2.map fun p => p.2).sum : ℕ) : ℚ)) ∘
            fun p : Char × ℕ => ((p.2 : ℕ) : ℚ) := rfl
    have hcast : (List.map (fun p : Char × ℕ => ((p.2 : ℕ) : ℚ)) r0.2).sum
        = (((List.map (fun p : Char × ℕ => p.2) r0.2).sum : ℕ) : ℚ) := by
      rw [cast_sum_nat, List.map_map]
      rfl
    rw [hmaps, ← List.map_map, sum_map_div, hcast,
      div_self (ne_of_gt htQ)]
  · show ∀ p ∈ normalizeRow r0.2, 0 < p.2 ∧ p.2 ≤ 1
    intro p hp
    unfold normalizeRow at hp
    dsimp only at hp
    rw [foldl_add_eq r0.2 0, Nat.zero_add] at hp
    obtain ⟨q, hq, hqeq⟩ := List.mem_map.mp hp
    rw [← hqeq]
    have hq1 : 1 ≤ q.2 := hge q hq
    have hqQ : (0 : ℚ) < (q.2 : ℚ) := by exact_mod_cast hq1
    constructor
    · exact div_pos hqQ htQ
    · rw [div_le_one htQ]
      have hle : q.2 ≤ (r0.2.map fun p => p.2).sum :=
        mem_le_sum_nat _ q.2 (List.mem_map.mpr ⟨q, hq, rfl⟩)
      exact_mod_cast hle

theorem eventTable_keys (events : List (Char × Char)) (c : Char) :
    ((eventTable events).lookup c).isSome = true
      ↔ c ∈ events.map Prod.fst := by
  unfold eventTable
  rw [lookup_map_snd normalizeRow (countFold events) c]
  cases hc : (countFold events).lookup c with
  | none =>
      constructor
      · intro h; cases h
      · intro h
        obtain ⟨e, he, hfst⟩ := List.mem_map.mp h
        have hmem : (c, e.2) ∈ events := by
          have : e = (c, e.2) := by
            rw [← hfst]
          rw [← this]
          exact he
        have hs := (cntAt_isSome_foldl events [] c e.2).mpr (Or.inr hmem)
        unfold cntAt at hs
        unfold countFold at hc
        rw [hc] at hs
        cases hs
  | some row =>
      constructor
      · intro _
        obtain ⟨hne, _⟩ := WFCounts_foldl events [] WFCounts_nil (c, row)
          (lookup_mem _ _ _ hc)
        cases hrow : row with
        | nil => exact absurd hrow hne
        | cons q rest =>
            obtain ⟨t0, n0⟩ := q
            have hcnt : cntAt (countFold events) c t0 = some n0 := by
              unfold cntAt
              rw [hc, hrow]
              simp [List.lookup]
            have hs : (cntAt (countFold events) c t0).isSome = true := by
              rw [hcnt]; rfl
            unfold countFold at hs
            rcases (cntAt_isSome_foldl events [] c t0).mp hs with h2 | h2
            · cases h2
            · exact List.mem_map.mpr ⟨(c, t0), h2, rfl⟩
      · intro _; rfl

/-! ## Claim theorems: the trainer -/

/-- C5: the trainer equals the spec's counting definitions.  For every
character pair `(c, t)`, the emission table's entry is the number of
index-aligned occurrences of `(correct[i], typed[i]) = (c, t)` divided by
the total number of aligned events whose correct character is `c` (absent
iff the count is zero); and the transition table's entry is the number of
adjacent occurrences of `(c, t)` in the sentinel-padded correct words,
divided by the row total, likewise. -/
theorem trainer_matches_spec_counts (pairs : List (List Char × List Char))
    (c t : Char) :
    lookup2 (compute_emissions pairs) c t
        = (if 0 < eventCount (emissionEvents pairs) c t
           then some ((eventCount (emissionEvents pairs) c t : ℚ)
             / (rowTotal (emissionEvents pairs) c : ℚ))
           else none)
      ∧ lookup2 (compute_transitions pairs) c t
        = (if 0 < eventCount (transitionEvents pairs) c t
           then some ((eventCount (transitionEvents pairs) c t : ℚ)
             / (rowTotal (transitionEvents pairs) c : ℚ))
           else none) :=
  ⟨by rw [compute_emissions_eq]; exact lookup2_eventTable _ c t,
   by rw [compute_transitions_eq]; exact lookup2_eventTable _ c t⟩

/-- C6: every row of both trained tables sums to exactly 1 in rational
arithmetic, every stored probability lies in `(0, 1]`, and a row exists
for a character iff that character was actually observed in the counted
position (as the correct character of an aligned pair, resp. as the
source of a padded adjacent pair). -/
theorem trainer_tables_normalized (pairs : List (List Char × List Char)) :
    (∀ r ∈ compute_emissions pairs,
        (r.2.map fun p => p.2).sum = 1 ∧ ∀ p ∈ r.2, 0 < p.2 ∧ p.2 ≤ 1)
    ∧ (∀ r ∈ compute_transitions pairs,
        (r.2.map fun p => p.2).sum = 1 ∧ ∀ p ∈ r.2, 0 < p.2 ∧ p.2 ≤ 1)
    ∧ (∀ c : Char, ((compute_emissions pairs).lookup c).isSome = true
        ↔ c ∈ (emissionEvents pairs).map Prod.fst)
    ∧ (∀ c : Char, ((compute_transitions pairs).lookup c).isSome = true
        ↔ c ∈ (transitionEvents pairs).map Prod.fst) := by
  refine ⟨?_, ?_, ?_, ?_⟩
  · rw [compute_emissions_eq]; exact eventTable_rows _
  · rw [compute_transitions_eq]; exact eventTable_rows _
  · intro c; rw [compute_emissions_eq]; exact eventTable_keys _ c
  · intro c; rw [compute_transitions_eq]; exact eventTable_keys _ c

/-- Witness for C6 on the concrete training set `[("ab", "ac")]`. -/
theorem trainer_tables_normalized_witness :
    (('a', normalizeRow [('a', 1)])
        ∈ compute_emissions [(['a', 'b'], ['a', 'c'])])
      ∧ (((('a', normalizeRow [('a', 1)]) : Char × Row).2.map
            fun p => p.2).sum = 1
        ∧ ∀ p ∈ (('a', normalizeRow [('a', 1)]) : Char × Row).2,
            0 < p.2 ∧ p.2 ≤ 1) := by
  have hmem : ('a', normalizeRow [('a', 1)])
      ∈ compute_emissions [(['a', 'b'], ['a', 'c'])] := by
    show ('a', normalizeRow [('a', 1)])
        ∈ [('a', normalizeRow [('a', 1)]), ('b', normalizeRow [('c', 1)])]
    exact List.mem_cons_self _ _
  exact ⟨hmem,
    (trainer_tables_normalized [(['a', 'b'], ['a', 'c'])]).1 _ hmem⟩
